import Mathlib

/-!
Verification development for the shift-scheduling optimizer (`app.py`).

The program builds a PuLP linear program: binary variables
`x[worker, date, shift_type]` for `shift_type ∈ {0,1,2,3}` mapped to the
labels Off / First Half / Second Half / Full Day, one continuous
non-negative `penalty` variable, an objective maximizing `-penalty`, and
three constraint families (exactly-one-shift per worker and day, two
half-day coverage inequalities per day, and a days-off equality per
worker).  After solving it decodes the variable values into a table of
labels.  We embed the model, the decoder and the input validation below,
indexing workers and days by position (worker `w` is the `w`-th name,
day `d` is `start_date + d`).
-/

namespace Shift

/-- The scheduling parameters that reach model construction:
number of workers, number of days in the inclusive range
(`n_days = (end - start).days + 1`), required staffing per day
(`n_workers_per_day`), and each worker's requested days off
(`days_off_dict`, by worker index). -/
structure Request where
  nW : Nat
  nDays : Nat
  required : Nat
  daysOff : Nat → Nat

/-- A valuation of the binary variables: `a w d s` is the solver value of
`x[worker w, day d, shift_type s]`.  PuLP returns floats, so values are
rationals; binarity is a constraint, not a typing assumption. -/
def Assign : Type := Nat → Nat → Nat → ℚ

/-- `shift_types = [0, 1, 2, 3]` from the source. -/
def shiftTypes : List Nat := [0, 1, 2, 3]

/-- `shift_mapping = {0: 'Off', 1: 'First Half', 2: 'Second Half', 3: 'Full Day'}`. -/
def shift_mapping : Nat → String
  | 0 => "Off"
  | 1 => "First Half"
  | 2 => "Second Half"
  | 3 => "Full Day"
  | _ => ""

/-- `lpSum(x[worker, date_str, shift_type] for shift_type in shift_types)`
(line 70). -/
def shiftSum (a : Assign) (w d : Nat) : ℚ :=
  (shiftTypes.map (fun s => a w d s)).sum

/-- `lpSum(x[worker, date_str, k] * 0.5 + x[worker, date_str, 3] for worker
in workers)` (lines 72-73), with `k = 1` for the first half and `k = 2`
for the second half. -/
def coverage (a : Assign) (nW d k : Nat) : ℚ :=
  ((List.range nW).map (fun w => a w d k * (1 / 2) + a w d 3)).sum

/-- `lpSum(x[worker, date, 0] for day in range(n_days))` (line 76). -/
def offSum (a : Assign) (nDays w : Nat) : ℚ :=
  ((List.range nDays).map (fun d => a w d 0)).sum

/-- The named constraints the model receives: `worker_{w}_day_{d}_constraint`
(line 70), `hard_full_and_first_{d}` (line 72), `hard_full_and_second_{d}`
(line 73), and `days_off_{w}` (line 76). -/
inductive Con where
  | exactlyOne (w d : Nat)
  | coverFirst (d : Nat)
  | coverSecond (d : Nat)
  | offQuota (w : Nat)
deriving DecidableEq

/-- The constraint list built by the loops at lines 67-76: per day, one
exactly-one constraint per worker followed by the two coverage
constraints; then one days-off constraint per worker. -/
def buildModel (r : Request) : List Con :=
  ((List.range r.nDays).map (fun d =>
      ((List.range r.nW).map (fun w => Con.exactlyOne w d)) ++
        [Con.coverFirst d, Con.coverSecond d])).flatten ++
    (List.range r.nW).map (fun w => Con.offQuota w)

/-- The meaning of each constraint over a valuation `(a, p)` of the
variables, where `p` is the value of the shared `penalty` variable. -/
def conHolds (r : Request) (a : Assign) (p : ℚ) : Con → Prop
  | Con.exactlyOne w d => shiftSum a w d = 1
  | Con.coverFirst d => (r.required : ℚ) - p ≤ coverage a r.nW d 1
  | Con.coverSecond d => (r.required : ℚ) - p ≤ coverage a r.nW d 2
  | Con.offQuota w => offSum a r.nDays w = (r.daysOff w : ℚ)

instance (r : Request) (a : Assign) (p : ℚ) :
    (c : Con) → Decidable (conHolds r a p c)
  | Con.exactlyOne _ _ => inferInstanceAs (Decidable (_ = _))
  | Con.coverFirst _ => inferInstanceAs (Decidable (_ ≤ _))
  | Con.coverSecond _ => inferInstanceAs (Decidable (_ ≤ _))
  | Con.offQuota _ => inferInstanceAs (Decidable (_ = _))

/-- Every variable `x[...]` has `cat='Binary'` (line 58). -/
def binaryVars (r : Request) (a : Assign) : Prop :=
  ∀ w < r.nW, ∀ d < r.nDays, ∀ s < 4, a w d s = 0 ∨ a w d s = 1

instance (r : Request) (a : Assign) : Decidable (binaryVars r a) :=
  inferInstanceAs (Decidable (∀ w < r.nW, ∀ d < r.nDays, ∀ s < 4, _ ∨ _))

/-- A valuation satisfies the model when the penalty respects its lower
bound `lowBound=0` (line 50), every variable is binary, and every
constraint of the model holds.  When the solve status is optimal (1),
the valuation the solver returns satisfies this predicate. -/
def feasible (r : Request) (a : Assign) (p : ℚ) : Prop :=
  0 ≤ p ∧ binaryVars r a ∧ ∀ c ∈ buildModel r, conHolds r a p c

instance (r : Request) (a : Assign) (p : ℚ) : Decidable (feasible r a p) :=
  inferInstanceAs (Decidable (_ ∧ _ ∧ ∀ c ∈ buildModel r, conHolds r a p c))

/-- The objective added at line 65: `model += -penalty` with sense
`LpMaximize`, so the quantity being maximized is the negation of the
penalty. -/
def objective (p : ℚ) : ℚ := -p

/-- Modelled from the spec: the solver backend (PuLP's `model.solve()` at
line 78) is external to this repository; per the spec its status
distinguishes "optimal solution found" from "no feasible solution", and
since the objective `-penalty` is bounded above on the feasible region,
the solve returns the optimal status exactly when the model is
feasible. -/
def solveIsOptimal (r : Request) : Prop :=
  ∃ a p, feasible r a p

/-- The decoder body for one cell (lines 85-91): starting from the empty
string (line 83), for each `shift_type` in order `[0, 1, 2, 3]`, if the
variable's value is truthy (`if var.varValue:`, i.e. nonzero) overwrite
the cell with that shift's label. -/
def decodeValue (v : Nat → ℚ) : String :=
  shiftTypes.foldl (fun acc s => if v s ≠ 0 then shift_mapping s else acc) ""

/-- The decoded cell for worker `w` on day `d`. -/
def decodeCell (a : Assign) (w d : Nat) : String :=
  decodeValue (fun s => a w d s)

/-- The status message shown to the user (lines 80-98): `status == 1`
yields the success message, anything else the error message. -/
def statusMessage (status : Int) : String :=
  if status = 1 then "Optimal solution found." else "No solution found."

/-- Whether the schedule table and CSV link are produced (they are built
only inside the `status == 1` branch, lines 83-96). -/
def producesSchedule (status : Int) : Bool :=
  status = 1

end Shift

namespace Shift

/-! Input handling before the model (lines 24-46). -/

/-- Python's `str.split(',')`: split on every comma; the empty string
splits to `['']`. -/
def splitOnChar (sep : Char) : List Char → List (List Char)
  | [] => [[]]
  | c :: cs =>
    if c = sep then [] :: splitOnChar sep cs
    else
      match splitOnChar sep cs with
      | [] => [[c]]
      | h :: t => (c :: h) :: t

/-- The ASCII whitespace characters Python's `str.strip()` removes. -/
def isPySpace (c : Char) : Bool :=
  c = ' ' || c = '\t' || c = '\n' || c = '\r' || c = '\x0b' || c = '\x0c'

/-- Python's `name.strip()`: drop whitespace from both ends. -/
def pyStrip (l : List Char) : List Char :=
  ((l.dropWhile isPySpace).reverse.dropWhile isPySpace).reverse

/-- `workers = [name.strip() for name in worker_names.split(',')]`
(line 38), over character lists. -/
def parseWorkersL (l : List Char) : List (List Char) :=
  (splitOnChar ',' l).map pyStrip

/-- `workers = [name.strip() for name in worker_names.split(',')]`
(line 38). -/
def parseWorkers (s : String) : List String :=
  (parseWorkersL s.toList).map (fun l => String.mk l)

/-- Joining name parts with commas (the inverse of `split(',')` on
comma-free parts), used to speak about inputs that differ only in the
whitespace around the commas. -/
def joinComma : List (List Char) → List Char
  | [] => []
  | [p] => p
  | p :: ps => p ++ ',' :: joinComma ps

/-- The validation performed before any model object exists: dates are
modelled as day ordinals.  Line 30: if `end_date < start_date`, warn and
`st.stop()`.  Line 40: if the number of split-and-stripped names differs
from `n_workers`, warn and `st.stop()`.  Otherwise the checked inputs
(worker names and `n_days = (end_date - start_date).days + 1`) reach
model construction. -/
def validateRequest (startDate endDate : Int) (workerNames : String)
    (nWorkers : Nat) : Except String (List String × Nat) :=
  if endDate < startDate then
    Except.error "The end date should be after the start date."
  else
    let workers := parseWorkers workerNames
    if workers.length ≠ nWorkers then
      Except.error "The number of worker names should match the number of workers."
    else
      Except.ok (workers, (endDate - startDate).toNat + 1)

end Shift

namespace Shift

/-- The per-worker schedule used to witness feasibility: worker `w` takes
the first `daysOff w` days off and works full days afterwards. -/
def planAssign (r : Request) : Assign := fun w d s =>
  if s = 0 then (if d < r.daysOff w then 1 else 0)
  else if s = 3 then (if d < r.daysOff w then 0 else 1)
  else 0

/-- The cell decoder the spec describes (to be compared with
`decodeValue`): the first shift kind in `[0, 1, 2, 3]` whose value is at
least 0.5 is authoritative. -/
def specDecodeValue (v : Nat → ℚ) : String :=
  match shiftTypes.find? (fun s => 1 / 2 ≤ v s) with
  | some s => shift_mapping s
  | none => ""

/-- The decoder behavior the code actually has: the last shift kind in
`[0, 1, 2, 3]` with a nonzero value is authoritative. -/
def decodeLastNonzero (v : Nat → ℚ) : String :=
  match [3, 2, 1, 0].find? (fun s => v s ≠ 0) with
  | some s => shift_mapping s
  | none => ""

/-- `p` is the optimal penalty of a request: some assignment attains it
and no feasible valuation has a smaller penalty. -/
def IsOptimalPenalty (r : Request) (p : ℚ) : Prop :=
  (∃ a, feasible r a p) ∧ ∀ a q, feasible r a q → p ≤ q

/-! Helper lemmas. -/

lemma shiftSum_eq (a : Assign) (w d : Nat) :
    shiftSum a w d = a w d 0 + a w d 1 + a w d 2 + a w d 3 := by
  simp [shiftSum, shiftTypes]
  ring

lemma mem_buildModel {r : Request} {c : Con} :
    c ∈ buildModel r ↔
      (∃ w, w < r.nW ∧ ∃ d, d < r.nDays ∧ c = Con.exactlyOne w d) ∨
      (∃ d, d < r.nDays ∧ (c = Con.coverFirst d ∨ c = Con.coverSecond d)) ∨
      (∃ w, w < r.nW ∧ c = Con.offQuota w) := by
  simp only [buildModel, List.mem_append, List.mem_flatten, List.mem_map,
    List.mem_range, List.mem_cons, List.mem_singleton]
  constructor
  · rintro (⟨l, ⟨d, hd, rfl⟩, hc⟩ | ⟨w, hw, rfl⟩)
    · rcases List.mem_append.mp hc with hc | hc
      · obtain ⟨w, hw, rfl⟩ := List.mem_map.mp hc
        exact Or.inl ⟨w, List.mem_range.mp hw, d, hd, rfl⟩
      · simp only [List.mem_cons, List.not_mem_nil, or_false] at hc
        rcases hc with hc | hc
        · exact Or.inr (Or.inl ⟨d, hd, Or.inl hc⟩)
        · exact Or.inr (Or.inl ⟨d, hd, Or.inr hc⟩)
    · exact Or.inr (Or.inr ⟨w, hw, rfl⟩)
  · rintro (⟨w, hw, d, hd, hc⟩ | ⟨d, hd, hc | hc⟩ | ⟨w, hw, hc⟩) <;> subst hc
    · exact Or.inl ⟨_, ⟨d, hd, rfl⟩,
        List.mem_append.mpr (Or.inl (List.mem_map.mpr ⟨w, List.mem_range.mpr hw, rfl⟩))⟩
    · exact Or.inl ⟨_, ⟨d, hd, rfl⟩, List.mem_append.mpr (Or.inr (by simp))⟩
    · exact Or.inl ⟨_, ⟨d, hd, rfl⟩, List.mem_append.mpr (Or.inr (by simp))⟩
    · exact Or.inr ⟨w, hw, rfl⟩

lemma exactlyOne_mem {r : Request} {w d : Nat} (hw : w < r.nW)
    (hd : d < r.nDays) : Con.exactlyOne w d ∈ buildModel r :=
  mem_buildModel.mpr (Or.inl ⟨w, hw, d, hd, rfl⟩)

lemma coverFirst_mem {r : Request} {d : Nat} (hd : d < r.nDays) :
    Con.coverFirst d ∈ buildModel r :=
  mem_buildModel.mpr (Or.inr (Or.inl ⟨d, hd, Or.inl rfl⟩))

lemma coverSecond_mem {r : Request} {d : Nat} (hd : d < r.nDays) :
    Con.coverSecond d ∈ buildModel r :=
  mem_buildModel.mpr (Or.inr (Or.inl ⟨d, hd, Or.inr rfl⟩))

lemma offQuota_mem {r : Request} {w : Nat} (hw : w < r.nW) :
    Con.offQuota w ∈ buildModel r :=
  mem_buildModel.mpr (Or.inr (Or.inr ⟨w, hw, rfl⟩))

lemma feasible_shiftSum {r : Request} {a : Assign} {p : ℚ} {w d : Nat}
    (hf : feasible r a p) (hw : w < r.nW) (hd : d < r.nDays) :
    a w d 0 + a w d 1 + a w d 2 + a w d 3 = 1 := by
  have h := hf.2.2 _ (exactlyOne_mem hw hd)
  simp only [conHolds] at h
  rwa [shiftSum_eq] at h

lemma feasible_offSum {r : Request} {a : Assign} {p : ℚ} {w : Nat}
    (hf : feasible r a p) (hw : w < r.nW) :
    offSum a r.nDays w = (r.daysOff w : ℚ) := by
  have h := hf.2.2 _ (offQuota_mem hw)
  simpa only [conHolds] using h

end Shift

namespace Shift

lemma cell_pattern {r : Request} {a : Assign} {p : ℚ} {w d : Nat}
    (hf : feasible r a p) (hw : w < r.nW) (hd : d < r.nDays) :
    ∃ s, s < 4 ∧ a w d s = 1 ∧ ∀ t, t < 4 → t ≠ s → a w d t = 0 := by
  have hsum := feasible_shiftSum hf hw hd
  have hb0 := hf.2.1 w hw d hd 0 (by norm_num)
  have hb1 := hf.2.1 w hw d hd 1 (by norm_num)
  have hb2 := hf.2.1 w hw d hd 2 (by norm_num)
  have hb3 := hf.2.1 w hw d hd 3 (by norm_num)
  obtain h0 | h0 := hb0 <;> obtain h1 | h1 := hb1 <;>
    obtain h2 | h2 := hb2 <;> obtain h3 | h3 := hb3 <;>
    rw [h0, h1, h2, h3] at hsum <;>
    first
      | (norm_num at hsum; done)
      | exact ⟨0, by norm_num, h0, by
          intro t ht hts; interval_cases t <;> simp_all⟩
      | exact ⟨1, by norm_num, h1, by
          intro t ht hts; interval_cases t <;> simp_all⟩
      | exact ⟨2, by norm_num, h2, by
          intro t ht hts; interval_cases t <;> simp_all⟩
      | exact ⟨3, by norm_num, h3, by
          intro t ht hts; interval_cases t <;> simp_all⟩

lemma decode_cell_eq {r : Request} {a : Assign} {p : ℚ} {w d : Nat}
    (hf : feasible r a p) (hw : w < r.nW) (hd : d < r.nDays) :
    ∃ s, s < 4 ∧ a w d s = 1 ∧ (∀ t, t < 4 → t ≠ s → a w d t = 0) ∧
      decodeCell a w d = shift_mapping s := by
  obtain ⟨s, hs4, hs1, hrest⟩ := cell_pattern hf hw hd
  refine ⟨s, hs4, hs1, hrest, ?_⟩
  interval_cases s <;>
    simp only [decodeCell, decodeValue, shiftTypes, List.foldl]
  · simp only [hs1, hrest 1 (by norm_num) (by norm_num), hrest 2 (by norm_num) (by norm_num),
      hrest 3 (by norm_num) (by norm_num)]
    norm_num [shift_mapping]
  · simp only [hrest 0 (by norm_num) (by norm_num), hs1, hrest 2 (by norm_num) (by norm_num),
      hrest 3 (by norm_num) (by norm_num)]
    norm_num [shift_mapping]
  · simp only [hrest 0 (by norm_num) (by norm_num), hrest 1 (by norm_num) (by norm_num), hs1,
      hrest 3 (by norm_num) (by norm_num)]
    norm_num [shift_mapping]
  · simp only [hrest 0 (by norm_num) (by norm_num), hrest 1 (by norm_num) (by norm_num),
      hrest 2 (by norm_num) (by norm_num), hs1]
    norm_num [shift_mapping]

end Shift

namespace Shift

lemma decode_off_iff {r : Request} {a : Assign} {p : ℚ} {w d : Nat}
    (hf : feasible r a p) (hw : w < r.nW) (hd : d < r.nDays) :
    decodeCell a w d = "Off" ↔ a w d 0 = 1 := by
  obtain ⟨s, hs4, hs1, hrest, hdec⟩ := decode_cell_eq hf hw hd
  constructor
  · intro h
    rw [hdec] at h
    interval_cases s
    · exact hs1
    · exact absurd h (by decide)
    · exact absurd h (by decide)
    · exact absurd h (by decide)
  · intro h0
    have hs0 : s = 0 := by
      by_contra hne
      have hz := hrest 0 (by norm_num) (fun he => hne he.symm)
      rw [hz] at h0
      exact absurd h0 (by norm_num)
    rw [hdec, hs0]
    rfl

lemma sum_eq_count (f : Nat → ℚ) :
    ∀ l : List Nat, (∀ d ∈ l, f d = 0 ∨ f d = 1) →
      (l.map f).sum = ((l.filter (fun d => f d = 1)).length : ℚ)
  | [], _ => by simp
  | d :: l, hb => by
    have ih := sum_eq_count f l (fun x hx => hb x (List.mem_cons_of_mem _ hx))
    rcases hb d (List.mem_cons_self d l) with h | h
    · rw [List.map_cons, List.sum_cons, h, List.filter_cons,
        if_neg (by simp [h]), ih]
      ring
    · rw [List.map_cons, List.sum_cons, h, List.filter_cons,
        if_pos (by simp [h]), List.length_cons, ih]
      push_cast
      ring

lemma filter_length_congr (P Q : Nat → Prop) [DecidablePred P] [DecidablePred Q] :
    ∀ l : List Nat, (∀ x ∈ l, P x ↔ Q x) →
      (l.filter (fun x => P x)).length = (l.filter (fun x => Q x)).length
  | [], _ => rfl
  | x :: l, h => by
    have ih := filter_length_congr P Q l (fun y hy => h y (List.mem_cons_of_mem _ hy))
    have hx := h x (List.mem_cons_self x l)
    by_cases hp : P x
    · rw [List.filter_cons, List.filter_cons, if_pos (by simpa using hp),
        if_pos (by simpa using hx.mp hp)]
      simp [ih]
    · rw [List.filter_cons, List.filter_cons, if_neg (by simpa using hp),
        if_neg (by simpa using fun hq => hp (hx.mpr hq))]
      exact ih

lemma list_sum_le_length : ∀ l : List ℚ, (∀ x ∈ l, x ≤ 1) → l.sum ≤ (l.length : ℚ)
  | [], _ => by simp
  | x :: l, h => by
    have ih := list_sum_le_length l (fun y hy => h y (List.mem_cons_of_mem _ hy))
    have hx := h x (List.mem_cons_self x l)
    simp only [List.sum_cons, List.length_cons]
    push_cast
    linarith

lemma sum_range_if (k : Nat) :
    ∀ n : Nat, ((List.range n).map (fun d => if d < k then (1 : ℚ) else 0)).sum
      = ((min k n : Nat) : ℚ)
  | 0 => by simp
  | n + 1 => by
    have ih := sum_range_if k n
    rw [List.range_succ, List.map_append, List.sum_append, ih]
    by_cases h : n < k
    · rw [List.map_singleton, List.sum_singleton, if_pos h]
      have : min k (n + 1) = n + 1 := by omega
      have hm : min k n = n := by omega
      rw [this, hm]
      push_cast
      ring
    · rw [List.map_singleton, List.sum_singleton, if_neg h]
      have : min k (n + 1) = min k n := by omega
      rw [this]
      ring

end Shift

namespace Shift

lemma splitOnChar_ne_nil (sep : Char) : ∀ l : List Char, splitOnChar sep l ≠ []
  | [] => by simp [splitOnChar]
  | c :: cs => by
    rw [splitOnChar]
    by_cases h : c = sep
    · simp [h]
    · rw [if_neg h]
      cases hs : splitOnChar sep cs <;> simp

lemma splitOnChar_no_sep (sep : Char) :
    ∀ l : List Char, sep ∉ l → splitOnChar sep l = [l]
  | [], _ => rfl
  | c :: cs, h => by
    have hc : c ≠ sep := fun he => h (he ▸ List.mem_cons_self c cs)
    have ih := splitOnChar_no_sep sep cs (fun hm => h (List.mem_cons_of_mem _ hm))
    rw [splitOnChar, if_neg hc, ih]

lemma splitOnChar_append (sep : Char) (rest : List Char) :
    ∀ q : List Char, sep ∉ q →
      splitOnChar sep (q ++ sep :: rest) = q :: splitOnChar sep rest
  | [], _ => by
    rw [List.nil_append, splitOnChar, if_pos rfl]
  | c :: cs, h => by
    have hc : c ≠ sep := fun he => h (he ▸ List.mem_cons_self c cs)
    have ih := splitOnChar_append sep rest cs (fun hm => h (List.mem_cons_of_mem _ hm))
    rw [List.cons_append, splitOnChar, if_neg hc, ih]

lemma joinComma_cons (q : List Char) (ps : List (List Char)) (h : ps ≠ []) :
    joinComma (q :: ps) = q ++ ',' :: joinComma ps := by
  cases ps with
  | nil => exact absurd rfl h
  | cons r rs => rfl

lemma splitOnChar_joinComma :
    ∀ parts : List (List Char), parts ≠ [] → (∀ q ∈ parts, ',' ∉ q) →
      splitOnChar ',' (joinComma parts) = parts
  | [], h, _ => absurd rfl h
  | [q], _, hc => by
    rw [joinComma, splitOnChar_no_sep ',' q (hc q (List.mem_cons_self q []))]
  | q :: r :: rs, _, hc => by
    have ih := splitOnChar_joinComma (r :: rs) (by simp)
      (fun x hx => hc x (List.mem_cons_of_mem _ hx))
    rw [joinComma_cons q (r :: rs) (by simp),
      splitOnChar_append ',' (joinComma (r :: rs)) q (hc q (List.mem_cons_self _ _)), ih]

end Shift

namespace Shift

/-- C1: for every scheduling request that reaches model construction, the
model contains for every worker `w` and day `d` in range the constraint
that the four shift-kind variables of `(w, d)` sum to 1; consequently in
every schedule decoded from an optimal solve, every cell carries exactly
one of the four labels and no cell is blank. -/
theorem C1_exactly_one_shift (r : Request) (w d : Nat)
    (hw : w < r.nW) (hd : d < r.nDays) :
    Con.exactlyOne w d ∈ buildModel r ∧
    ∀ a p, feasible r a p →
      decodeCell a w d ∈ ["Off", "First Half", "Second Half", "Full Day"] ∧
      decodeCell a w d ≠ "" ∧
      ∃ s, s < 4 ∧ a w d s = 1 ∧ (∀ t, t < 4 → t ≠ s → a w d t = 0) ∧
        decodeCell a w d = shift_mapping s := by
  refine ⟨exactlyOne_mem hw hd, fun a p hf => ?_⟩
  obtain ⟨s, hs4, h1, h0, hdec⟩ := decode_cell_eq hf hw hd
  refine ⟨?_, ?_, s, hs4, h1, h0, hdec⟩ <;>
    rw [hdec] <;> interval_cases s <;> decide

/-- C1 witness: the theorem instantiated at a concrete in-range cell. -/
theorem C1_exactly_one_shift_witness :
    Con.exactlyOne 0 0 ∈ buildModel ⟨1, 1, 1, fun _ => 0⟩ ∧
    ∀ a p, feasible ⟨1, 1, 1, fun _ => 0⟩ a p →
      decodeCell a 0 0 ∈ ["Off", "First Half", "Second Half", "Full Day"] ∧
      decodeCell a 0 0 ≠ "" ∧
      ∃ s, s < 4 ∧ a 0 0 s = 1 ∧ (∀ t, t < 4 → t ≠ s → a 0 0 t = 0) ∧
        decodeCell a 0 0 = shift_mapping s :=
  C1_exactly_one_shift ⟨1, 1, 1, fun _ => 0⟩ 0 0 (by decide) (by decide)

/-- C2: whenever the solve status is optimal (so the returned valuation
satisfies the model), the days-off quota is a hard equality constraint of
the model, it holds for the returned valuation, and the number of days
decoded as "Off" for each worker equals exactly that worker's requested
days-off value. -/
theorem C2_days_off_exact (r : Request) (a : Assign) (p : ℚ) (w : Nat)
    (hf : feasible r a p) (hw : w < r.nW) :
    Con.offQuota w ∈ buildModel r ∧
    offSum a r.nDays w = (r.daysOff w : ℚ) ∧
    ((List.range r.nDays).filter
      (fun d => decodeCell a w d = "Off")).length = r.daysOff w := by
  refine ⟨offQuota_mem hw, feasible_offSum hf hw, ?_⟩
  have hq := feasible_offSum hf hw
  have hbin : ∀ d ∈ List.range r.nDays, a w d 0 = 0 ∨ a w d 0 = 1 := fun d hd =>
    hf.2.1 w hw d (List.mem_range.mp hd) 0 (by norm_num)
  have hcount := sum_eq_count (fun d => a w d 0) (List.range r.nDays) hbin
  have hlen : (((List.range r.nDays).filter
      (fun d => a w d 0 = 1)).length : ℚ) = (r.daysOff w : ℚ) := by
    rw [← hcount]
    exact hq
  rw [filter_length_congr (fun d => decodeCell a w d = "Off")
    (fun d => a w d 0 = 1) (List.range r.nDays)
    (fun d hd => decode_off_iff hf hw (List.mem_range.mp hd))]
  exact_mod_cast hlen

/-- C2 witness: the theorem instantiated with a concrete feasible
valuation (one worker, one day, zero requested days off, full-day work). -/
theorem C2_days_off_exact_witness :
    Con.offQuota 0 ∈ buildModel ⟨1, 1, 1, fun _ => 0⟩ ∧
    offSum (fun _ _ s => if s = 3 then 1 else 0) 1 0 = ((0 : Nat) : ℚ) ∧
    ((List.range 1).filter
      (fun d => decodeCell (fun _ _ s => if s = 3 then 1 else 0) 0 d = "Off")).length = 0 :=
  C2_days_off_exact ⟨1, 1, 1, fun _ => 0⟩ (fun _ _ s => if s = 3 then 1 else 0) 0 0
    (by
      refine ⟨le_refl 0, ?_, ?_⟩
      · intro w hw d hd s hs
        interval_cases s <;> norm_num
      · intro c hc
        simp only [buildModel, List.range_succ, List.range_zero] at hc
        fin_cases hc <;>
          simp [conHolds, shiftSum, coverage, offSum, shiftTypes])
    (by decide)

/-- C3: for every day in range the model contains the two coverage
constraints; each says that the workers' half-day-weighted coverage is at
least the required staffing minus the one shared penalty variable `p`
(the same `p` in both constraints on every day, non-negative on every
feasible valuation), and the objective being maximized is `-p`. -/
theorem C3_coverage_shared_penalty (r : Request) (d : Nat) (a : Assign)
    (p : ℚ) (hd : d < r.nDays) :
    Con.coverFirst d ∈ buildModel r ∧ Con.coverSecond d ∈ buildModel r ∧
    (conHolds r a p (Con.coverFirst d) ↔
      (r.required : ℚ) - p ≤
        ((List.range r.nW).map (fun w => a w d 1 * (1 / 2) + a w d 3)).sum) ∧
    (conHolds r a p (Con.coverSecond d) ↔
      (r.required : ℚ) - p ≤
        ((List.range r.nW).map (fun w => a w d 2 * (1 / 2) + a w d 3)).sum) ∧
    (feasible r a p → 0 ≤ p) ∧
    objective p = -p :=
  ⟨coverFirst_mem hd, coverSecond_mem hd, Iff.rfl, Iff.rfl, fun hf => hf.1, rfl⟩

/-- C3 witness: the theorem instantiated at a concrete day. -/
theorem C3_coverage_shared_penalty_witness :
    Con.coverFirst 0 ∈ buildModel ⟨1, 1, 1, fun _ => 0⟩ ∧
    Con.coverSecond 0 ∈ buildModel ⟨1, 1, 1, fun _ => 0⟩ ∧
    (conHolds ⟨1, 1, 1, fun _ => 0⟩ (fun _ _ _ => 0) 0 (Con.coverFirst 0) ↔
      ((1 : Nat) : ℚ) - 0 ≤
        ((List.range 1).map
          (fun w => (fun _ _ _ => (0 : ℚ)) w 0 1 * (1 / 2) +
            (fun _ _ _ => (0 : ℚ)) w 0 3)).sum) ∧
    (conHolds ⟨1, 1, 1, fun _ => 0⟩ (fun _ _ _ => 0) 0 (Con.coverSecond 0) ↔
      ((1 : Nat) : ℚ) - 0 ≤
        ((List.range 1).map
          (fun w => (fun _ _ _ => (0 : ℚ)) w 0 2 * (1 / 2) +
            (fun _ _ _ => (0 : ℚ)) w 0 3)).sum) ∧
    (feasible ⟨1, 1, 1, fun _ => 0⟩ (fun _ _ _ => 0) 0 → (0 : ℚ) ≤ 0) ∧
    objective 0 = -0 :=
  C3_coverage_shared_penalty ⟨1, 1, 1, fun _ => 0⟩ 0 (fun _ _ _ => 0) 0 (by decide)

end Shift

namespace Shift

/-- C4: whenever every worker's days-off quota is at most the number of
days in range (quotas are satisfiable on their own), the model is
feasible — regardless of the required staffing level, since the shortfall
routes through the unbounded-above penalty — and hence the solve returns
the optimal status. -/
theorem C4_quotas_ok_feasible (r : Request)
    (h : ∀ w < r.nW, r.daysOff w ≤ r.nDays) : solveIsOptimal r := by
  refine ⟨planAssign r, (r.required : ℚ), Nat.cast_nonneg _, ?_, ?_⟩
  · intro w hw d hd s hs
    unfold planAssign
    split_ifs <;> simp
  · intro c hc
    rw [mem_buildModel] at hc
    rcases hc with ⟨w, hw, d, hd, hc⟩ | ⟨d, hd, hc | hc⟩ | ⟨w, hw, hc⟩ <;> subst hc
    · show shiftSum (planAssign r) w d = 1
      rw [shiftSum_eq]
      unfold planAssign
      by_cases hlt : d < r.daysOff w <;> simp [hlt]
    · show (r.required : ℚ) - (r.required : ℚ) ≤ coverage (planAssign r) r.nW d 1
      rw [sub_self]
      refine List.sum_nonneg ?_
      intro x hx
      obtain ⟨w, hw, rfl⟩ := List.mem_map.mp hx
      unfold planAssign
      split_ifs <;> norm_num
    · show (r.required : ℚ) - (r.required : ℚ) ≤ coverage (planAssign r) r.nW d 2
      rw [sub_self]
      refine List.sum_nonneg ?_
      intro x hx
      obtain ⟨w, hw, rfl⟩ := List.mem_map.mp hx
      unfold planAssign
      split_ifs <;> norm_num
    · show offSum (planAssign r) r.nDays w = (r.daysOff w : ℚ)
      have : offSum (planAssign r) r.nDays w =
          ((List.range r.nDays).map (fun d => if d < r.daysOff w then (1 : ℚ) else 0)).sum := by
        unfold offSum planAssign
        simp
      rw [this, sum_range_if]
      have hm : min (r.daysOff w) r.nDays = r.daysOff w :=
        min_eq_left (h w hw)
      rw [hm]

/-- C4 witness: the theorem instantiated at a concrete request whose
quotas fit in the range. -/
theorem C4_quotas_ok_feasible_witness :
    solveIsOptimal ⟨2, 3, 2, fun _ => 1⟩ :=
  C4_quotas_ok_feasible ⟨2, 3, 2, fun _ => 1⟩ (by decide)

/-- C5: if some worker's requested days-off count exceeds the number of
days in range, the days-off equality is unsatisfiable, so the model is
infeasible, the solve status is not optimal, and any non-optimal status
is reported as the failure outcome. -/
theorem C5_overrequest_infeasible (r : Request)
    (h : ∃ w, w < r.nW ∧ r.nDays < r.daysOff w) :
    ¬ solveIsOptimal r ∧
    ∀ status : Int, status ≠ 1 → statusMessage status = "No solution found." := by
  constructor
  · rintro ⟨a, p, hf⟩
    obtain ⟨w, hw, hgt⟩ := h
    have hq := feasible_offSum hf hw
    have hle : offSum a r.nDays w ≤ (r.nDays : ℚ) := by
      have hmap : ((List.range r.nDays).map (fun d => a w d 0)).length = r.nDays := by
        rw [List.length_map, List.length_range]
      have := list_sum_le_length ((List.range r.nDays).map (fun d => a w d 0)) ?_
      · rwa [hmap] at this
      · intro x hx
        obtain ⟨d, hd, rfl⟩ := List.mem_map.mp hx
        rcases hf.2.1 w hw d (List.mem_range.mp hd) 0 (by norm_num) with h0 | h0 <;>
          simp [h0]
    rw [hq] at hle
    have : r.daysOff w ≤ r.nDays := by exact_mod_cast hle
    omega
  · intro status hs
    simp [statusMessage, hs]

/-- C5 witness: the theorem instantiated at the spec's example — a 10-day
range where one of the workers requests 11 days off. -/
theorem C5_overrequest_infeasible_witness :
    ¬ solveIsOptimal ⟨5, 10, 3, fun w => if w = 0 then 11 else 5⟩ ∧
    ∀ status : Int, status ≠ 1 → statusMessage status = "No solution found." :=
  C5_overrequest_infeasible ⟨5, 10, 3, fun w => if w = 0 then 11 else 5⟩
    ⟨0, by decide, by decide⟩

/-- C6: holding the worker roster, date range and days-off quotas fixed,
a larger required staffing level never has a smaller optimal penalty. -/
theorem C6_penalty_monotone (nW nDays req1 req2 : Nat) (dOff : Nat → Nat)
    (p1 p2 : ℚ) (hreq : req1 ≤ req2)
    (h1 : IsOptimalPenalty ⟨nW, nDays, req1, dOff⟩ p1)
    (h2 : IsOptimalPenalty ⟨nW, nDays, req2, dOff⟩ p2) : p1 ≤ p2 := by
  obtain ⟨⟨a2, hf2⟩, _⟩ := h2
  refine h1.2 a2 p2 ⟨hf2.1, hf2.2.1, ?_⟩
  intro c hc
  have hc2 : c ∈ buildModel ⟨nW, nDays, req2, dOff⟩ := by
    rw [mem_buildModel] at hc ⊢
    exact hc
  have h := hf2.2.2 c hc2
  have hcast : (req1 : ℚ) ≤ (req2 : ℚ) := by exact_mod_cast hreq
  cases c with
  | exactlyOne w d => exact h
  | coverFirst d =>
    simp only [conHolds] at h ⊢
    linarith
  | coverSecond d =>
    simp only [conHolds] at h ⊢
    linarith
  | offQuota w => exact h

end Shift

namespace Shift

lemma optPenalty_one : IsOptimalPenalty ⟨1, 1, 1, fun _ => 0⟩ 0 := by
  constructor
  · refine ⟨fun _ _ s => if s = 3 then 1 else 0, le_refl 0, ?_, ?_⟩
    · intro w hw d hd s hs
      interval_cases s <;> norm_num
    · intro c hc
      simp only [buildModel, List.range_succ, List.range_zero] at hc
      fin_cases hc <;>
        simp [conHolds, shiftSum, coverage, offSum, shiftTypes]
  · intro a q hq
    exact hq.1

lemma optPenalty_two : IsOptimalPenalty ⟨1, 1, 2, fun _ => 0⟩ 1 := by
  constructor
  · refine ⟨fun _ _ s => if s = 3 then 1 else 0, by norm_num, ?_, ?_⟩
    · intro w hw d hd s hs
      interval_cases s <;> norm_num
    · intro c hc
      simp only [buildModel, List.range_succ, List.range_zero] at hc
      fin_cases hc <;>
        simp [conHolds, shiftSum, coverage, offSum, shiftTypes] <;>
        norm_num
  · intro a q hq
    have hsum := @feasible_shiftSum _ a q 0 0 hq (by norm_num) (by norm_num)
    have hcov := hq.2.2 (Con.coverFirst 0) (coverFirst_mem (by norm_num))
    simp only [conHolds, coverage] at hcov
    simp only [List.range_succ, List.range_zero, List.nil_append, List.map_cons,
      List.map_nil, List.sum_cons, List.sum_nil, add_zero] at hcov
    norm_num at hcov
    have hb0 := hq.2.1 0 (by norm_num) 0 (by norm_num) 0 (by norm_num)
    have hb1 := hq.2.1 0 (by norm_num) 0 (by norm_num) 1 (by norm_num)
    have hb2 := hq.2.1 0 (by norm_num) 0 (by norm_num) 2 (by norm_num)
    have hb3 := hq.2.1 0 (by norm_num) 0 (by norm_num) 3 (by norm_num)
    have h0 : 0 ≤ a 0 0 0 := by rcases hb0 with h | h <;> simp [h]
    have h1 : 0 ≤ a 0 0 1 := by rcases hb1 with h | h <;> simp [h]
    have h2 : 0 ≤ a 0 0 2 := by rcases hb2 with h | h <;> simp [h]
    have h3 : 0 ≤ a 0 0 3 := by rcases hb3 with h | h <;> simp [h]
    linarith

/-- C6 witness: the theorem instantiated at two concrete requests that
differ only in the required staffing level (1 versus 2) and whose
optimal penalties are 0 and 1. -/
theorem C6_penalty_monotone_witness :
    IsOptimalPenalty ⟨1, 1, 1, fun _ => 0⟩ 0 ∧
    IsOptimalPenalty ⟨1, 1, 2, fun _ => 0⟩ 1 ∧ (0 : ℚ) ≤ 1 :=
  ⟨optPenalty_one, optPenalty_two,
    C6_penalty_monotone 1 1 1 2 (fun _ => 0) 0 1 (by norm_num)
      optPenalty_one optPenalty_two⟩

end Shift

namespace Shift

/-- C7 counterexample: with both the Off and the Full Day variable equal
to 1 (both "selected" in the spec's sense), the decoder produces
"Full Day", i.e. the last selected kind in the fixed order, not the
first kind "Off" the claim designates as authoritative. -/
theorem C7_counterexample :
    decodeValue (fun s => if s = 0 then 1 else if s = 3 then 1 else 0) = "Full Day" ∧
    specDecodeValue (fun s => if s = 0 then 1 else if s = 3 then 1 else 0) = "Off" ∧
    decodeValue (fun s => if s = 0 then 1 else if s = 3 then 1 else 0) ≠
      specDecodeValue (fun s => if s = 0 then 1 else if s = 3 then 1 else 0) := by
  have hs : specDecodeValue
      (fun s => if s = 0 then 1 else if s = 3 then 1 else 0) = "Off" := by
    simp only [specDecodeValue, shiftTypes, List.find?]
    norm_num
    rfl
  have hd : decodeValue
      (fun s => if s = 0 then 1 else if s = 3 then 1 else 0) = "Full Day" := by
    decide
  refine ⟨hd, hs, ?_⟩
  rw [hd, hs]
  decide

/-- C7 (amended): the decoder treats any nonzero variable value as
selected (Python truthiness of `varValue`), and when several shift kinds
are selected for the same cell the last one in the Off, FirstHalf,
SecondHalf, FullDay order is authoritative. -/
theorem C7_decoder_last_selected (v : Nat → ℚ) :
    decodeValue v = decodeLastNonzero v := by
  by_cases h0 : v 0 = 0 <;> by_cases h1 : v 1 = 0 <;> by_cases h2 : v 2 = 0 <;>
    by_cases h3 : v 3 = 0 <;>
    simp [decodeValue, decodeLastNonzero, shiftTypes, List.find?, h0, h1, h2, h3]

/-- C8: any non-optimal solve status produces exactly the failure message
and no schedule table, while the optimal status produces exactly the
success message and the schedule. -/
theorem C8_outcome (status : Int) (h : status ≠ 1) :
    statusMessage status = "No solution found." ∧
    producesSchedule status = false ∧
    statusMessage 1 = "Optimal solution found." ∧
    producesSchedule 1 = true := by
  refine ⟨?_, ?_, rfl, rfl⟩ <;> simp [statusMessage, producesSchedule, h]

/-- C8 witness: the theorem instantiated at the non-optimal status 0. -/
theorem C8_outcome_witness :
    statusMessage 0 = "No solution found." ∧
    producesSchedule 0 = false ∧
    statusMessage 1 = "Optimal solution found." ∧
    producesSchedule 1 = true :=
  C8_outcome 0 (by decide)

/-- C9: whenever the end date precedes the start date, or the number of
split-and-stripped worker names differs from the declared worker count,
validation stops with a user-visible warning and never hands anything to
model construction. -/
theorem C9_validation_halts (startDate endDate : Int) (workerNames : String)
    (nWorkers : Nat)
    (h : endDate < startDate ∨ (parseWorkers workerNames).length ≠ nWorkers) :
    (∃ msg, validateRequest startDate endDate workerNames nWorkers =
      Except.error msg) ∧
    ∀ res, validateRequest startDate endDate workerNames nWorkers ≠
      Except.ok res := by
  have herr : ∃ msg, validateRequest startDate endDate workerNames nWorkers =
      Except.error msg := by
    rcases h with h | h
    · exact ⟨"The end date should be after the start date.",
        by rw [validateRequest, if_pos h]⟩
    · by_cases hd : endDate < startDate
      · exact ⟨"The end date should be after the start date.",
          by rw [validateRequest, if_pos hd]⟩
      · refine ⟨"The number of worker names should match the number of workers.", ?_⟩
        simp only [validateRequest]
        rw [if_neg hd, if_pos h]
  refine ⟨herr, ?_⟩
  obtain ⟨msg, hm⟩ := herr
  intro res
  rw [hm]
  simp

/-- C9 witness: the theorem instantiated at a reversed date range. -/
theorem C9_validation_halts_witness :
    (∃ msg, validateRequest 1 0 "A" 1 = Except.error msg) ∧
    ∀ res, validateRequest 1 0 "A" 1 ≠ Except.ok res :=
  C9_validation_halts 1 0 "A" 1 (Or.inl (by decide))

/-- C10: worker names are stripped of surrounding whitespace, so two
name inputs whose comma-separated parts agree after stripping (inputs
differing only in whitespace around the commas) parse to the same worker
list, and an all-whitespace element parses to the empty-string worker. -/
theorem C10_strip_whitespace (parts1 parts2 : List (List Char))
    (hne1 : parts1 ≠ []) (hne2 : parts2 ≠ [])
    (hc1 : ∀ q ∈ parts1, ',' ∉ q) (hc2 : ∀ q ∈ parts2, ',' ∉ q)
    (h : parts1.map pyStrip = parts2.map pyStrip) :
    parseWorkersL (joinComma parts1) = parseWorkersL (joinComma parts2) ∧
    parseWorkers "A,   ,B" = ["A", "", "B"] := by
  constructor
  · unfold parseWorkersL
    rw [splitOnChar_joinComma parts1 hne1 hc1,
      splitOnChar_joinComma parts2 hne2 hc2, h]
  · decide

/-- C10 witness: the theorem instantiated at `" A,B "`-style padded parts
versus their unpadded forms. -/
theorem C10_strip_whitespace_witness :
    parseWorkersL (joinComma [[' ', 'A'], ['B', ' ']]) =
      parseWorkersL (joinComma [['A'], ['B']]) ∧
    parseWorkers "A,   ,B" = ["A", "", "B"] :=
  C10_strip_whitespace [[' ', 'A'], ['B', ' ']] [['A'], ['B']]
    (by decide) (by decide) (by decide) (by decide) (by decide)

end Shift
